import Mathlib

/-!
Verification development for the `philpearl/csv` streaming CSV codec.

The reader (`part_001`, first version: `Reader.Scan` / `Reader.Read` with the
`parsed` cell accumulator and `cellOffsets` boundary table) is embedded as a
pure byte-list scanner; bytes are modelled as `Nat`.  The writer (`writer.go`,
second version with the `count` cell counter) is embedded as a pure state
transformer on a `Writer` record.
-/

namespace Csv

/-- The cell-scanner states of the reader's finite state machine
(`cellStateBegin` .. `cellStateSlashR` in the source). -/
inductive cellState
  | begin
  | inQuote
  | inQuoteQuote
  | inCell
  | trailingWhiteSpace
  | slashR
deriving DecidableEq

/-- Errors surfaced by the reader: `io.EOF` from `Scan` when the stream is
already complete, `io.ErrUnexpectedEOF` for end of input inside a quoted
field, and the two malformed-quoting errors of `scanCell`. -/
inductive ScanErr
  | eof
  | unexpectedEOF
  | afterQuote (c : Nat)
  | afterQuotedCell (c : Nat)
deriving DecidableEq

/-- The effect of feeding one byte to the state machine of `Reader.scanCell`:
either consume it and continue in a new state (appending `out` to the cell
accumulator), or end the cell (appending `out`, with the row-done flag), or
fail. -/
inductive StepRes
  | cont (s : cellState) (out : List Nat)
  | endCell (out : List Nat) (rowDone : Bool)
  | err (e : ScanErr)
deriving DecidableEq

/-- One byte of `Reader.scanCell`'s inner `switch s { ... }`.  Byte values:
`34` is `"`, `44` is `,`, `32` is space, `9` is tab, `13` is `\r`, `10` is
`\n`. -/
def stepByte (s : cellState) (c : Nat) : StepRes :=
  match s with
  | .begin =>
    if c = 34 then .cont .inQuote []
    else if c = 44 then .endCell [] false
    else if c = 32 ∨ c = 9 then .cont .begin []
    else if c = 13 then .cont .slashR []
    else if c = 10 then .endCell [] true
    else .cont .inCell [c]
  | .inCell =>
    if c = 44 then .endCell [] false
    else if c = 13 then .cont .slashR []
    else if c = 10 then .endCell [] true
    else .cont .inCell [c]
  | .inQuote =>
    if c = 34 then .cont .inQuoteQuote []
    else .cont .inQuote [c]
  | .inQuoteQuote =>
    if c = 34 then .cont .inQuote [34]
    else if c = 44 then .endCell [] false
    else if c = 32 ∨ c = 9 then .cont .trailingWhiteSpace []
    else if c = 13 then .cont .slashR []
    else if c = 10 then .endCell [] true
    else .err (.afterQuote c)
  | .trailingWhiteSpace =>
    if c = 44 then .endCell [] false
    else if c = 32 ∨ c = 9 then .cont .trailingWhiteSpace []
    else if c = 13 then .cont .slashR []
    else if c = 10 then .endCell [] true
    else .err (.afterQuotedCell c)
  | .slashR =>
    if c = 44 then .endCell [13] false
    else if c = 13 then .cont .slashR [13]
    else if c = 10 then .endCell [] true
    else .cont .inCell [13, c]

/-- Result of one `Reader.scanCell` call: the cell accumulator after the call
(`r.parsed` in the source, cells concatenated), the unconsumed input, and the
`rowDone` / `fileDone` flags as left by the call. -/
structure CellResult where
  parsed : List Nat
  rest : List Nat
  rowDone : Bool
  fileDone : Bool
deriving DecidableEq

/-- `Reader.scanCell` from state `s` with accumulator `acc` on the remaining
input.  Exhausted input is the source returning `(0, io.EOF)`: the source sets
`fileDone` and `rowDone`, fails with `unexpectedEOF` in state `inQuote`, and
otherwise returns what has accumulated. -/
def scanCellFrom : cellState → List Nat → List Nat → Except ScanErr CellResult
  | s, acc, [] =>
    if s = .inQuote then .error .unexpectedEOF
    else .ok ⟨acc, [], true, true⟩
  | s, acc, c :: rest =>
    match stepByte s c with
    | .cont s2 out => scanCellFrom s2 (acc ++ out) rest
    | .endCell out rowDone => .ok ⟨acc ++ out, rest, rowDone, false⟩
    | .err e => .error e

/-- A successful cell scan consumes no bytes beyond the input, and consumes at
least one byte whenever it does not end the row. -/
theorem scanCellFrom_rest_length {s : cellState} {acc input : List Nat} {r : CellResult}
    (h : scanCellFrom s acc input = .ok r) :
    r.rest.length ≤ input.length ∧ (r.rowDone = false → r.rest.length < input.length) := by
  induction input generalizing s acc with
  | nil =>
    by_cases hs : s = cellState.inQuote
    · simp [scanCellFrom, hs] at h
    · simp [scanCellFrom, hs] at h
      constructor
      · simp [← h]
      · intro hrd
        rw [← h] at hrd
        simp at hrd
  | cons c rest ih =>
    rw [scanCellFrom] at h
    cases hstep : stepByte s c with
    | cont s2 out =>
      rw [hstep] at h
      have := ih h
      exact ⟨Nat.le_succ_of_le this.1, fun hrd => Nat.lt_succ_of_lt (this.2 hrd)⟩
    | endCell out rowDone =>
      rw [hstep] at h
      simp at h
      constructor
      · simp [← h, Nat.le_succ]
      · intro _
        simp [← h, Nat.lt_succ_self]
    | err e =>
      rw [hstep] at h
      simp at h

/-- The reader state published by a successful `Reader.Scan`: the row's cell
accumulator (`parsed`), the cell-boundary table (`cellOffsets`), plus the
unconsumed input and the stream-complete flag. -/
structure ReaderRow where
  parsed : List Nat
  cellOffsets : List Nat
  rest : List Nat
  fileDone : Bool
deriving DecidableEq

/-- The `for !r.rowDone` loop of `Reader.Scan`: repeatedly scan a cell and
append `len(r.parsed)` to the boundary table, until the row is done. -/
def scanLoop (parsed offsets input : List Nat) : Except ScanErr ReaderRow :=
  match h : scanCellFrom .begin parsed input with
  | .error e => .error e
  | .ok r =>
    if hd : r.rowDone then .ok ⟨r.parsed, offsets ++ [r.parsed.length], r.rest, r.fileDone⟩
    else scanLoop r.parsed (offsets ++ [r.parsed.length]) r.rest
termination_by input.length
decreasing_by
  simp at hd
  exact (scanCellFrom_rest_length h).2 hd

/-- `Reader.Scan`: returns `io.EOF` if the stream is already complete,
otherwise rebuilds the cell accumulator and the boundary table from empty
(`parsed := []`, `cellOffsets := [0]`) and runs the row loop. -/
def scan (fileDone : Bool) (input : List Nat) : Except ScanErr ReaderRow :=
  if fileDone then .error .eof else scanLoop [] [0] input

/-- The loop of `Reader.rowStrings`: slices `parsed[lastOffset:offset]` for
each `offset` in `cellOffsets[1:]`. -/
def rowStringsAux (parsed : List Nat) : Nat → List Nat → List (List Nat)
  | _, [] => []
  | lastOffset, o :: offs =>
    ((parsed.drop lastOffset).take (o - lastOffset)) :: rowStringsAux parsed o offs

/-- `Reader.rowStrings` (behind `Reader.Read` and `Reader.Text`): the cells of
the current row as byte strings. -/
def rowStrings (r : ReaderRow) : List (List Nat) :=
  rowStringsAux r.parsed 0 (r.cellOffsets.drop 1)

/-- `Reader.Len`: number of cells in the current row. -/
def Len (r : ReaderRow) : Nat := r.cellOffsets.length - 1

/-- `n` consecutive `Reader.Read` calls (`Scan` + `rowStrings`), threading the
unconsumed input and the stream-complete flag. -/
def readRows : Nat → Bool → List Nat → Except ScanErr (List (List (List Nat)) × Bool × List Nat)
  | 0, fileDone, input => .ok ([], fileDone, input)
  | n+1, fileDone, input =>
    match scan fileDone input with
    | .error e => .error e
    | .ok r =>
      match readRows n r.fileDone r.rest with
      | .error e => .error e
      | .ok (rows, fd, rest) => .ok (rowStrings r :: rows, fd, rest)

/-! ## Writer -/

/-- `unicode.IsSpace`: Go's `White_Space` character class. -/
def unicodeIsSpace (r : Nat) : Bool :=
  decide (r = 9 ∨ r = 10 ∨ r = 11 ∨ r = 12 ∨ r = 13 ∨ r = 32 ∨ r = 0x85 ∨ r = 0xA0 ∨
    r = 0x1680 ∨ (0x2000 ≤ r ∧ r ≤ 0x200A) ∨ r = 0x2028 ∨ r = 0x2029 ∨ r = 0x202F ∨
    r = 0x205F ∨ r = 0x3000)

/-- `utf8.DecodeRune` / `utf8.DecodeRuneInString`: the first rune of the byte
sequence, with Go's accept ranges; malformed input decodes to `RuneError`
(`0xFFFD`). -/
def utf8DecodeRune : List Nat → Nat
  | [] => 0xFFFD
  | b0 :: rest =>
    if b0 < 0x80 then b0
    else if b0 < 0xC2 ∨ 0xF4 < b0 then 0xFFFD
    else if b0 < 0xE0 then
      match rest with
      | b1 :: _ => if 0x80 ≤ b1 ∧ b1 ≤ 0xBF then (b0 % 32) * 64 + b1 % 64 else 0xFFFD
      | [] => 0xFFFD
    else if b0 < 0xF0 then
      match rest with
      | b1 :: b2 :: _ =>
        if (if b0 = 0xE0 then 0xA0 ≤ b1 ∧ b1 ≤ 0xBF
            else if b0 = 0xED then 0x80 ≤ b1 ∧ b1 ≤ 0x9F
            else 0x80 ≤ b1 ∧ b1 ≤ 0xBF) ∧ (0x80 ≤ b2 ∧ b2 ≤ 0xBF)
        then (b0 % 16) * 4096 + (b1 % 64) * 64 + b2 % 64
        else 0xFFFD
      | _ => 0xFFFD
    else
      match rest with
      | b1 :: b2 :: b3 :: _ =>
        if (if b0 = 0xF0 then 0x90 ≤ b1 ∧ b1 ≤ 0xBF
            else if b0 = 0xF4 then 0x80 ≤ b1 ∧ b1 ≤ 0x8F
            else 0x80 ≤ b1 ∧ b1 ≤ 0xBF) ∧ (0x80 ≤ b2 ∧ b2 ≤ 0xBF) ∧ (0x80 ≤ b3 ∧ b3 ≤ 0xBF)
        then (b0 % 8) * 262144 + (b1 % 64) * 4096 + (b2 % 64) * 64 + b3 % 64
        else 0xFFFD
      | _ => 0xFFFD

/-- `strings.ContainsAny(field, ",\"\r\n")` / `bytes.ContainsAny`: does the
field contain a comma, double quote, CR or LF byte. -/
def containsSpecial (field : List Nat) : Bool :=
  field.any fun c => decide (c = 44 ∨ c = 34 ∨ c = 13 ∨ c = 10)

/-- The CSV writer: line buffer `b` plus the cell counter `count`
(second version of `writer.go`).  The sink is passed to `LineComplete`. -/
structure Writer where
  b : List Nat
  count : Nat
deriving DecidableEq

/-- A freshly constructed writer (`NewWriter`): empty buffer, zero count. -/
def Writer.init : Writer := ⟨[], 0⟩

/-- `Writer.comma`: append a separator iff the cell counter is nonzero, then
increment the counter. -/
def Writer.comma (w : Writer) : Writer :=
  ⟨if w.count ≠ 0 then w.b ++ [44] else w.b, w.count + 1⟩

/-- The quote-escaping loop shared by `Writer.String` and `Writer.Bytes`:
copy every byte, doubling each `"` byte. -/
def escapeQuotes : List Nat → List Nat
  | [] => []
  | c :: t => (if c = 34 then [34, 34] else [c]) ++ escapeQuotes t

/-- `Writer.fieldNeedsQuotes` (string version): empty fields are never
quoted; `\.` (bytes `92 46`) or any of `, " \r \n` forces quotes; otherwise
quote iff the first decoded rune is white space. -/
def Writer.fieldNeedsQuotes (field : List Nat) : Bool :=
  if field = [] then false
  else if field = [92, 46] ∨ containsSpecial field then true
  else unicodeIsSpace (utf8DecodeRune field)

/-- `Writer.byteFieldNeedsQuotes` ([]byte version): same conditions, with the
`\.` comparison done as an explicit length-2 byte check after the
`ContainsAny` scan. -/
def Writer.byteFieldNeedsQuotes (field : List Nat) : Bool :=
  if field.length = 0 then false
  else if containsSpecial field then true
  else if field.length = 2 ∧ field.getD 0 0 = 92 ∧ field.getD 1 0 = 46 then true
  else unicodeIsSpace (utf8DecodeRune field)

/-- `Writer.String`: separator, then the field either raw or quote-wrapped
with embedded quotes doubled, per `fieldNeedsQuotes`. -/
def Writer.String (w : Writer) (s : List Nat) : Writer :=
  let w := w.comma
  if ¬ Writer.fieldNeedsQuotes s then ⟨w.b ++ s, w.count⟩
  else ⟨w.b ++ [34] ++ escapeQuotes s ++ [34], w.count⟩

/-- `Writer.Bytes`: identical to `String` but driven by
`byteFieldNeedsQuotes`. -/
def Writer.Bytes (w : Writer) (s : List Nat) : Writer :=
  let w := w.comma
  if ¬ Writer.byteFieldNeedsQuotes s then ⟨w.b ++ s, w.count⟩
  else ⟨w.b ++ [34] ++ escapeQuotes s ++ [34], w.count⟩

/-- `strconv.AppendInt(b, i, 10)`: plain decimal digits with a leading `-`
for negative values. -/
def appendInt (i : Int) : List Nat :=
  if i < 0 then 45 :: (Nat.toDigits 10 (-i).toNat).map Char.toNat
  else (Nat.toDigits 10 i.toNat).map Char.toNat

/-- `Writer.Int64`. -/
def Writer.Int64 (w : Writer) (i : Int) : Writer :=
  let w := w.comma
  ⟨w.b ++ appendInt i, w.count⟩

/-- `Writer.Float64`.  `strconv.AppendFloat(b, f, 103, -1, 64)` formats the
float; floating-point formatting is outside the embedding, so the op carries
the formatted digit bytes `payload` directly. -/
def Writer.Float64 (w : Writer) (payload : List Nat) : Writer :=
  let w := w.comma
  ⟨w.b ++ payload, w.count⟩

/-- `Writer.Bool`: `strconv.AppendBool`, the bytes of `true` / `false`. -/
def Writer.Bool (w : Writer) (bv : Bool) : Writer :=
  let w := w.comma
  ⟨w.b ++ (if bv then [116, 114, 117, 101] else [102, 97, 108, 115, 101]), w.count⟩

/-- `Writer.Skip`: just the separator logic. -/
def Writer.Skip (w : Writer) : Writer := w.comma

/-- `Writer.LineComplete`: append LF, hand the whole buffer to the sink in a
single `Write` call, return the sink's result unchanged, and clear buffer and
counter regardless.  Components: (sink's error, bytes given to the sink,
writer afterwards). -/
def Writer.LineComplete {E : Type} (w : Writer) (write : List Nat → Option E) :
    Option E × List Nat × Writer :=
  (write (w.b ++ [10]), w.b ++ [10], ⟨[], 0⟩)

/-- One field-appending writer call within a line. -/
inductive WOp
  | str (s : List Nat)
  | bytes (s : List Nat)
  | int64 (i : Int)
  | float64 (payload : List Nat)
  | bool (bv : Bool)
  | skip

/-- Dispatch a field-appending call to the corresponding writer method. -/
def applyOp (w : Writer) : WOp → Writer
  | .str s => w.String s
  | .bytes s => w.Bytes s
  | .int64 i => w.Int64 i
  | .float64 p => w.Float64 p
  | .bool bv => w.Bool bv
  | .skip => w.Skip

/-- The bytes an op contributes after the separator logic. -/
def opPayload : WOp → List Nat
  | .str s =>
    if ¬ Writer.fieldNeedsQuotes s then s else [34] ++ escapeQuotes s ++ [34]
  | .bytes s =>
    if ¬ Writer.byteFieldNeedsQuotes s then s else [34] ++ escapeQuotes s ++ [34]
  | .int64 i => appendInt i
  | .float64 p => p
  | .bool bv => if bv then [116, 114, 117, 101] else [102, 97, 108, 115, 101]
  | .skip => []

/-- Run a sequence of field-appending calls. -/
def runOps (w : Writer) (ops : List WOp) : Writer := ops.foldl applyOp w

/-- Write each row's fields with `Writer.String` and finish each line with
`LineComplete`, concatenating everything handed to the sink. -/
def writeRows : Writer → List (List (List Nat)) → List Nat
  | _, [] => []
  | w, row :: rest =>
    let w1 := row.foldl Writer.String w
    let r := Writer.LineComplete w1 (fun _ => (none : Option Unit))
    r.2.1 ++ writeRows r.2.2 rest

/-- A plain alphanumeric byte: ASCII `0-9`, `A-Z` or `a-z`. -/
def plainByte (c : Nat) : Bool :=
  decide ((48 ≤ c ∧ c ≤ 57) ∨ (65 ≤ c ∧ c ≤ 90) ∨ (97 ≤ c ∧ c ≤ 122))

/-- Comma-join of a row's fields — the unquoted wire form of a line body. -/
def joinComma : List (List Nat) → List Nat
  | [] => []
  | [f] => f
  | f :: g :: t => f ++ 44 :: joinComma (g :: t)

/-- Running end offsets of consecutive fields, starting from `base` — the
shape of the boundary table built by `Scan` past its leading `0`. -/
def endOffsets (base : Nat) : List (List Nat) → List Nat
  | [] => []
  | f :: t => (base + f.length) :: endOffsets (base + f.length) t

/-! ## Helper lemmas -/

/-- A list equals the two bytes of `\.` iff it has length two and those
entries — the string comparison of `fieldNeedsQuotes` versus the indexed
byte comparison of `byteFieldNeedsQuotes`. -/
theorem eq_slashdot_iff (s : List Nat) :
    s = [92, 46] ↔ (s.length = 2 ∧ s.getD 0 0 = 92 ∧ s.getD 1 0 = 46) := by
  match s with
  | [] => simp
  | [a] => simp
  | [a, b] => simp [List.getD]
  | a :: b :: c :: t => simp

/-- The string and byte quoting tests agree on every byte sequence. -/
theorem fieldNeedsQuotes_eq_byte (s : List Nat) :
    Writer.fieldNeedsQuotes s = Writer.byteFieldNeedsQuotes s := by
  by_cases hnil : s = []
  · subst hnil; rfl
  · by_cases hsp : containsSpecial s = true
    · simp [Writer.fieldNeedsQuotes, Writer.byteFieldNeedsQuotes, hnil, hsp,
        List.length_eq_zero]
    · by_cases hsd : s = [92, 46]
      · subst hsd; rfl
      · have hlen0 : ¬ (s.length = 0) := by simpa [List.length_eq_zero] using hnil
        have hor : ¬ (s = [92, 46] ∨ containsSpecial s = true) := by
          rintro (h | h)
          · exact hsd h
          · exact hsp h
        have hcond : ¬ (s.length = 2 ∧ s.getD 0 0 = 92 ∧ s.getD 1 0 = 46) :=
          fun h => hsd ((eq_slashdot_iff s).mpr h)
        rw [Writer.fieldNeedsQuotes, Writer.byteFieldNeedsQuotes,
          if_neg hnil, if_neg hor, if_neg hlen0, if_neg hsp, if_neg hcond]

/-- Every field-appending op is: separator iff the counter is nonzero, then
the op's payload, then a counter increment. -/
theorem applyOp_eq (w : Writer) (op : WOp) :
    applyOp w op = ⟨w.b ++ (if w.count = 0 then [] else [44]) ++ opPayload op, w.count + 1⟩ := by
  have hb : (Writer.comma w).b = w.b ++ (if w.count = 0 then [] else [44]) := by
    by_cases h : w.count = 0 <;> simp [Writer.comma, h]
  have hc : (Writer.comma w).count = w.count + 1 := rfl
  cases op with
  | str s =>
    simp only [applyOp, Writer.String, opPayload]
    by_cases h : Writer.fieldNeedsQuotes s <;> simp [h, hb, hc]
  | bytes s =>
    simp only [applyOp, Writer.Bytes, opPayload]
    by_cases h : Writer.byteFieldNeedsQuotes s <;> simp [h, hb, hc]
  | int64 i => simp [applyOp, Writer.Int64, opPayload, hb, hc]
  | float64 p => simp [applyOp, Writer.Float64, opPayload, hb, hc]
  | bool bv => simp [applyOp, Writer.Bool, opPayload, hb, hc]
  | skip =>
    simp only [applyOp, Writer.Skip, opPayload, Writer.comma]
    by_cases h : w.count = 0 <;> simp [h]

/-- Running ops adds their number to the cell counter. -/
theorem runOps_count (w : Writer) (ops : List WOp) :
    (runOps w ops).count = w.count + ops.length := by
  induction ops generalizing w with
  | nil => simp [runOps]
  | cons op t ih =>
    have : runOps w (op :: t) = runOps (applyOp w op) t := rfl
    rw [this, ih, applyOp_eq]
    simp
    omega

/-- `escapeQuotes` doubles exactly the quote bytes. -/
theorem escapeQuotes_count (s : List Nat) :
    (escapeQuotes s).count 34 = 2 * s.count 34 := by
  induction s with
  | nil => rfl
  | cons c t ih =>
    by_cases h : c = 34
    · subst h
      simp [escapeQuotes, List.count_cons, ih]
      omega
    · simp [escapeQuotes, List.count_cons, h, ih]

/-! ## Claims -/

/-- **C2**: `Writer.String` wraps a field in double quotes — doubling every
embedded quote byte — exactly when the field contains a comma, quote, CR or
LF, or its first decoded rune is white space, or it is exactly `\.`; the
empty field is never quoted and contributes zero bytes. -/
theorem stringQuotingRule (w : Writer) (s : List Nat) :
    (Writer.String w s).b =
      (Writer.comma w).b ++
        (if Writer.fieldNeedsQuotes s then 34 :: (escapeQuotes s ++ [34]) else s) ∧
    (Writer.fieldNeedsQuotes s = true ↔
      (containsSpecial s = true ∨ unicodeIsSpace (utf8DecodeRune s) = true ∨ s = [92, 46])) ∧
    (escapeQuotes s).count 34 = 2 * s.count 34 ∧
    (s = [] → (Writer.String w s).b = (Writer.comma w).b) := by
  refine ⟨?_, ?_, escapeQuotes_count s, ?_⟩
  · by_cases h : Writer.fieldNeedsQuotes s <;> simp [Writer.String, h]
  · by_cases hnil : s = []
    · subst hnil
      simp [Writer.fieldNeedsQuotes, containsSpecial, utf8DecodeRune, unicodeIsSpace]
    · by_cases hsd : s = [92, 46]
      · subst hsd
        decide
      · by_cases hsp : containsSpecial s = true
        · simp [Writer.fieldNeedsQuotes, hnil, hsp]
        · have hor : ¬ (s = [92, 46] ∨ containsSpecial s = true) := by
            rintro (h | h)
            · exact hsd h
            · exact hsp h
          rw [Writer.fieldNeedsQuotes, if_neg hnil, if_neg hor]
          simp [hsp, hsd]
  · intro h
    subst h
    simp [Writer.String, Writer.fieldNeedsQuotes]

/-- Witness for C2 at the empty field. -/
theorem stringQuotingRule_witness :
    (Writer.String Writer.init []).b = (Writer.comma Writer.init).b :=
  (stringQuotingRule Writer.init []).2.2.2 rfl

/-- **C9**: string-based and byte-based appends are byte-for-byte the same:
`Writer.String` and `Writer.Bytes` produce identical writer states on the
same field content. -/
theorem stringBytesAgree (w : Writer) (s : List Nat) :
    Writer.String w s = Writer.Bytes w s := by
  rw [Writer.String, Writer.Bytes, fieldNeedsQuotes_eq_byte]

/-- **C6**: `LineComplete` hands exactly the line buffer plus a trailing LF
to the sink in one call, returns the sink's result unchanged, and leaves the
buffer empty and the counter zero whatever that result was. -/
theorem lineCompleteFlush (E : Type) (write : List Nat → Option E) (w : Writer) :
    (Writer.LineComplete w write).1 = write (w.b ++ [10]) ∧
    (Writer.LineComplete w write).2.1 = w.b ++ [10] ∧
    (Writer.LineComplete w write).2.2.b = [] ∧
    (Writer.LineComplete w write).2.2.count = 0 :=
  ⟨rfl, rfl, rfl, rfl⟩

/-- **C7**: within one line, each append (String, Bytes, Int64, Float64,
Bool, Skip) emits a separator comma exactly when the cell counter is nonzero,
and after `i` appends since the line started the counter is exactly `i` — so
the comma appears iff at least one field was already appended; `LineComplete`
resets the writer to the fresh state. -/
theorem commaIffCountNonzero (ops : List WOp) (i : Nat) (h : i < ops.length) :
    (runOps Writer.init (ops.take i)).count = i ∧
    (applyOp (runOps Writer.init (ops.take i)) (ops.get ⟨i, h⟩)).b =
      (runOps Writer.init (ops.take i)).b ++ (if i = 0 then [] else [44]) ++
        opPayload (ops.get ⟨i, h⟩) ∧
    (∀ (E : Type) (write : List Nat → Option E) (w2 : Writer),
      (Writer.LineComplete w2 write).2.2 = Writer.init) := by
  have hcount : (runOps Writer.init (ops.take i)).count = i := by
    rw [runOps_count]
    simp [Writer.init]
    omega
  refine ⟨hcount, ?_, fun _ _ _ => rfl⟩
  rw [applyOp_eq, hcount]

/-- Witness for C7 on a two-op line at index 1. -/
theorem commaIffCountNonzero_witness :
    (runOps Writer.init ([WOp.skip, WOp.skip].take 1)).count = 1 ∧
    (applyOp (runOps Writer.init ([WOp.skip, WOp.skip].take 1))
        ([WOp.skip, WOp.skip].get ⟨1, by decide⟩)).b =
      (runOps Writer.init ([WOp.skip, WOp.skip].take 1)).b ++
        (if 1 = 0 then [] else [44]) ++
        opPayload ([WOp.skip, WOp.skip].get ⟨1, by decide⟩) ∧
    (∀ (E : Type) (write : List Nat → Option E) (w2 : Writer),
      (Writer.LineComplete w2 write).2.2 = Writer.init) :=
  commaIffCountNonzero [WOp.skip, WOp.skip] 1 (by decide)

/-- **C4**: end of input inside a quoted field fails with the
unexpected-EOF error — in particular the one-byte input `"` fails so — while
end of input in any other state ends both cell and row, marks the stream
complete, and returns the accumulated bytes. -/
theorem eofInsideQuoteFails :
    (∀ acc : List Nat, scanCellFrom .inQuote acc [] = .error .unexpectedEOF) ∧
    (scan false [34] = .error .unexpectedEOF) ∧
    (∀ (s : cellState) (acc : List Nat), s ≠ .inQuote →
      scanCellFrom s acc [] = .ok ⟨acc, [], true, true⟩) := by
  refine ⟨fun acc => by simp [scanCellFrom], ?_, fun s acc hs => by simp [scanCellFrom, hs]⟩
  simp [scan, scanLoop, scanCellFrom, stepByte]

/-- Witness for C4's non-quote EOF case in state `inCell`. -/
theorem eofInsideQuoteFails_witness :
    scanCellFrom .inCell [97] [] = .ok ⟨[97], [], true, true⟩ :=
  eofInsideQuoteFails.2.2 .inCell [97] (by decide)

/-- **C5**: a pending CR followed by CR LF ends the row with exactly one
literal CR appended to the cell (`a, b\r\r\nc,d` parses as rows
`["a", "b\r"]` and `["c", "d"]`), while a pending CR followed by a byte other
than LF, comma or CR is kept as ordinary cell data. -/
theorem pendingCRBehaviour :
    (∀ (acc rest : List Nat), scanCellFrom .slashR acc (13 :: 10 :: rest) =
      .ok ⟨acc ++ [13], rest, true, false⟩) ∧
    (readRows 2 false [97, 44, 32, 98, 13, 13, 10, 99, 44, 100] =
      .ok ([[[97], [98, 13]], [[99], [100]]], true, [])) ∧
    (∀ (acc rest : List Nat) (c : Nat), c ≠ 10 → c ≠ 44 → c ≠ 13 →
      scanCellFrom .slashR acc (c :: rest) = scanCellFrom .inCell (acc ++ [13, c]) rest) := by
  refine ⟨fun acc rest => by simp [scanCellFrom, stepByte], ?_, ?_⟩
  · simp [readRows, scan, scanLoop, scanCellFrom, stepByte, rowStrings, rowStringsAux]
  · intro acc rest c h10 h44 h13
    simp [scanCellFrom, stepByte, h10, h44, h13]

/-- Witness for C5's ordinary-data case with byte `x` after a pending CR. -/
theorem pendingCRBehaviour_witness :
    scanCellFrom .slashR [] [120] = scanCellFrom .inCell [13, 120] [] :=
  pendingCRBehaviour.2.2 [] [] 120 (by decide) (by decide) (by decide)

/-- **C3 counterexample**: the input `a ,b\n` leaves the trailing space in
the first (unquoted) cell — the reader does not trim trailing whitespace of
unquoted fields, refuting the claim as stated. -/
theorem unquotedTrailingSpaceKept :
    (scan false [97, 32, 44, 98, 10]).toOption.map rowStrings = some [[97, 32], [98]] ∧
    ¬ (∀ cells, (scan false [97, 32, 44, 98, 10]).toOption.map rowStrings = some cells →
        ∀ cell ∈ cells, cell.getLast? ≠ some 32 ∧ cell.getLast? ≠ some 9) := by
  have hparse : (scan false [97, 32, 44, 98, 10]).toOption.map rowStrings =
      some [[97, 32], [98]] := by
    simp [scan, scanLoop, scanCellFrom, stepByte, rowStrings, rowStringsAux,
      Except.toOption]
  refine ⟨hparse, fun hall => ?_⟩
  have := (hall [[97, 32], [98]] hparse [97, 32] (by simp)).1
  simp at this

/-- **C3 amended**: the reader trims leading space/tab before any cell and
space/tab after a closing quote; whitespace inside quotes, and trailing or
inner whitespace of an unquoted cell, is kept as data. -/
theorem whitespaceTrimming :
    (∀ (acc rest : List Nat) (c : Nat), c = 32 ∨ c = 9 →
      scanCellFrom .begin acc (c :: rest) = scanCellFrom .begin acc rest) ∧
    (∀ (acc rest : List Nat) (c : Nat), c = 32 ∨ c = 9 →
      scanCellFrom .inQuoteQuote acc (c :: rest) = scanCellFrom .trailingWhiteSpace acc rest) ∧
    (∀ (acc rest : List Nat) (c : Nat), c = 32 ∨ c = 9 →
      scanCellFrom .trailingWhiteSpace acc (c :: rest) =
        scanCellFrom .trailingWhiteSpace acc rest) ∧
    (∀ (acc rest : List Nat) (c : Nat), c ≠ 34 →
      scanCellFrom .inQuote acc (c :: rest) = scanCellFrom .inQuote (acc ++ [c]) rest) ∧
    (∀ (acc rest : List Nat) (c : Nat), c = 32 ∨ c = 9 →
      scanCellFrom .inCell acc (c :: rest) = scanCellFrom .inCell (acc ++ [c]) rest) := by
  refine ⟨?_, ?_, ?_, ?_, ?_⟩ <;> intro acc rest c hc
  · rcases hc with h | h <;> subst h <;> simp [scanCellFrom, stepByte]
  · rcases hc with h | h <;> subst h <;> simp [scanCellFrom, stepByte]
  · rcases hc with h | h <;> subst h <;> simp [scanCellFrom, stepByte]
  · simp [scanCellFrom, stepByte, hc]
  · rcases hc with h | h <;> subst h <;> simp [scanCellFrom, stepByte]

/-- Witness for the amended C3: a leading space before a cell is skipped. -/
theorem whitespaceTrimming_witness :
    scanCellFrom .begin [] [32] = scanCellFrom .begin [] [] :=
  whitespaceTrimming.1 [] [] 32 (Or.inl rfl)

/-- A cell scan only ever appends to the cell accumulator. -/
theorem scanCellFrom_parsed_prefix {s : cellState} {acc input : List Nat} {r : CellResult}
    (h : scanCellFrom s acc input = .ok r) : ∃ add, r.parsed = acc ++ add := by
  induction input generalizing s acc with
  | nil =>
    by_cases hs : s = cellState.inQuote
    · simp [scanCellFrom, hs] at h
    · simp [scanCellFrom, hs] at h
      exact ⟨[], by simp [← h]⟩
  | cons c rest ih =>
    rw [scanCellFrom] at h
    cases hstep : stepByte s c with
    | cont s2 out =>
      rw [hstep] at h
      obtain ⟨add, ha⟩ := ih h
      exact ⟨out ++ add, by simp [ha]⟩
    | endCell out rowDone =>
      rw [hstep] at h
      simp at h
      exact ⟨out, by simp [← h]⟩
    | err e =>
      rw [hstep] at h
      simp at h

/-- Appending a larger offset preserves the boundary-table invariants. -/
theorem offsets_concat_inv {offsets : List Nat} {pl x : Nat}
    (hlast : offsets.getLast? = some pl)
    (hchain : List.Chain' (· ≤ ·) offsets) (hle : pl ≤ x) :
    (offsets ++ [x]).getLast? = some x ∧ List.Chain' (· ≤ ·) (offsets ++ [x]) := by
  refine ⟨by simp, ?_⟩
  rw [List.chain'_append]
  refine ⟨hchain, by simp, ?_⟩
  intro a ha y hy
  simp at hy
  rw [hlast] at ha
  simp at ha
  omega

/-- The row loop of `Scan` only appends to the boundary table, appends at
least one offset, keeps it non-decreasing, and its final entry is the length
of the cell accumulator. -/
theorem scanLoop_inv :
    ∀ (n : Nat) (parsed offsets input : List Nat) (r : ReaderRow),
    input.length ≤ n →
    scanLoop parsed offsets input = .ok r →
    offsets.getLast? = some parsed.length →
    List.Chain' (· ≤ ·) offsets →
    (∃ t, r.cellOffsets = offsets ++ t ∧ t ≠ []) ∧
    r.cellOffsets.getLast? = some r.parsed.length ∧
    List.Chain' (· ≤ ·) r.cellOffsets := by
  intro n
  induction n with
  | zero =>
    intro parsed offsets input r hn hloop hlast hchain
    rw [scanLoop] at hloop
    split at hloop
    · exact absurd hloop (by simp)
    · rename_i r0 hcell
      have hple : parsed.length ≤ r0.parsed.length := by
        obtain ⟨add, ha⟩ := scanCellFrom_parsed_prefix hcell
        simp [ha]
      split at hloop
      · rename_i hrd
        simp only [Except.ok.injEq] at hloop
        obtain ⟨hco⟩ := offsets_concat_inv hlast hchain hple
        rw [← hloop]
        exact ⟨⟨[r0.parsed.length], rfl, by simp⟩,
          (offsets_concat_inv hlast hchain hple).1,
          (offsets_concat_inv hlast hchain hple).2⟩
      · rename_i hrd
        simp at hrd
        have := (scanCellFrom_rest_length hcell).2 hrd
        omega
  | succ n ih =>
    intro parsed offsets input r hn hloop hlast hchain
    rw [scanLoop] at hloop
    split at hloop
    · exact absurd hloop (by simp)
    · rename_i r0 hcell
      have hple : parsed.length ≤ r0.parsed.length := by
        obtain ⟨add, ha⟩ := scanCellFrom_parsed_prefix hcell
        simp [ha]
      split at hloop
      · rename_i hrd
        simp only [Except.ok.injEq] at hloop
        rw [← hloop]
        exact ⟨⟨[r0.parsed.length], rfl, by simp⟩,
          (offsets_concat_inv hlast hchain hple).1,
          (offsets_concat_inv hlast hchain hple).2⟩
      · rename_i hrd
        simp at hrd
        have hlt := (scanCellFrom_rest_length hcell).2 hrd
        have hrest : r0.rest.length ≤ n := by omega
        obtain ⟨⟨t, hco, htne⟩, hl2, hc2⟩ :=
          ih r0.parsed (offsets ++ [r0.parsed.length]) r0.rest r hrest hloop
            (offsets_concat_inv hlast hchain hple).1
            (offsets_concat_inv hlast hchain hple).2
        exact ⟨⟨[r0.parsed.length] ++ t, by simpa using hco, by simp⟩, hl2, hc2⟩

/-- `rowStrings` yields one cell per boundary-table entry past the first. -/
theorem rowStringsAux_length (parsed : List Nat) (lastOffset : Nat) (offs : List Nat) :
    (rowStringsAux parsed lastOffset offs).length = offs.length := by
  induction offs generalizing lastOffset with
  | nil => rfl
  | cons o t ih => simp [rowStringsAux, ih]

/-- Consecutive boundary-table entries bound the corresponding cell of
`rowStrings`. -/
theorem rowStringsAux_get (parsed : List Nat) :
    ∀ (offs : List Nat) (lastOffset i a b : Nat),
      (lastOffset :: offs)[i]? = some a → offs[i]? = some b →
      (rowStringsAux parsed lastOffset offs)[i]? =
        some ((parsed.drop a).take (b - a)) := by
  intro offs
  induction offs with
  | nil =>
    intro lastOffset i a b _ hb
    simp at hb
  | cons o t ih =>
    intro lastOffset i a b ha hb
    cases i with
    | zero =>
      simp at ha hb
      subst ha
      subst hb
      simp [rowStringsAux]
    | succ j =>
      rw [rowStringsAux]
      simp only [List.getElem?_cons_succ] at ha hb ⊢
      exact ih o j a b ha hb

/-- **C8**: after a successful `Scan`, the boundary table has one more entry
than the row has cells, starts at offset `0`, is non-decreasing, ends at the
cell accumulator's length, and entries `i` and `i+1` bound cell `i`; the
table and accumulator are rebuilt from `[0]` and empty at every `Scan`. -/
theorem scanOffsetsInvariant {input : List Nat} {r : ReaderRow}
    (h : scan false input = .ok r) :
    r.cellOffsets.length = Len r + 1 ∧
    Len r = (rowStrings r).length ∧
    r.cellOffsets.head? = some 0 ∧
    List.Chain' (· ≤ ·) r.cellOffsets ∧
    r.cellOffsets.getLast? = some r.parsed.length ∧
    (∀ i a b, r.cellOffsets[i]? = some a → r.cellOffsets[i+1]? = some b →
      (rowStrings r)[i]? = some ((r.parsed.drop a).take (b - a))) := by
  have hloop : scanLoop [] [0] input = .ok r := by simpa [scan] using h
  obtain ⟨⟨t, hco, htne⟩, hlast, hchain⟩ :=
    scanLoop_inv input.length [] [0] input r le_rfl hloop (by simp) (by simp)
  have hcons : r.cellOffsets = 0 :: t := by simpa using hco
  constructor
  · rw [Len, hcons]
    simp
  refine ⟨?_, by rw [hcons]; rfl, hchain, hlast, ?_⟩
  · rw [Len, rowStrings, rowStringsAux_length, hcons]
    simp
  · intro i a b ha hb
    rw [rowStrings, hcons]
    simp only [List.drop_succ_cons, List.drop_zero]
    rw [hcons] at ha hb
    simp only [List.getElem?_cons_succ] at hb
    exact rowStringsAux_get r.parsed t 0 i a b ha hb

/-- Witness for C8 on the input `a,b\n`. -/
theorem scanOffsetsInvariant_witness :
    (⟨[97, 98], [0, 1, 2], [], false⟩ : ReaderRow).cellOffsets.head? = some 0 ∧
    List.Chain' (· ≤ ·) (⟨[97, 98], [0, 1, 2], [], false⟩ : ReaderRow).cellOffsets := by
  have h : scan false [97, 44, 98, 10] = .ok ⟨[97, 98], [0, 1, 2], [], false⟩ := by
    simp [scan, scanLoop, scanCellFrom, stepByte]
  exact ⟨(scanOffsetsInvariant h).2.2.1, (scanOffsetsInvariant h).2.2.2.1⟩

/-- Only a comma ends a cell without ending the row. -/
theorem stepByte_endCell_false {s : cellState} {c : Nat} {out : List Nat}
    (h : stepByte s c = .endCell out false) : c = 44 := by
  cases s <;> simp only [stepByte] at h <;> split_ifs at h <;> simp_all

/-- A line feed ends cell and row in every state except inside quotes, where
it is appended as data. -/
theorem stepByte_lf (s : cellState) :
    stepByte s 10 = .endCell [] true ∨
      (stepByte s 10 = .cont .inQuote [10] ∧ s = .inQuote) := by
  cases s <;> simp [stepByte]

/-- A successful cell scan reports the stream complete only when it consumed
the whole input, and then the input cannot have ended with a line feed. -/
theorem scanCellFrom_fileDone {s : cellState} {acc input : List Nat} {r : CellResult}
    (h : scanCellFrom s acc input = .ok r) (hfd : r.fileDone = true) :
    r.rest = [] ∧ (input = [] ∨ input.getLast? ≠ some 10) := by
  induction input generalizing s acc with
  | nil =>
    by_cases hs : s = cellState.inQuote
    · simp [scanCellFrom, hs] at h
    · simp [scanCellFrom, hs] at h
      exact ⟨by simp [← h], Or.inl rfl⟩
  | cons c rest ih =>
    rw [scanCellFrom] at h
    cases hstep : stepByte s c with
    | cont s2 out =>
      rw [hstep] at h
      have ihh := ih h
      refine ⟨ihh.1, Or.inr fun hlast10 => ?_⟩
      cases rest with
      | nil =>
        simp at hlast10
        subst hlast10
        rcases stepByte_lf s with hl | ⟨hl, _⟩
        · rw [hl] at hstep
          cases hstep
        · rw [hl] at hstep
          cases hstep
          simp [scanCellFrom] at h
      | cons d rest2 =>
        rcases ihh.2 with h0 | hne
        · cases h0
        · exact hne (by simpa using hlast10)
    | endCell out rowDone =>
      rw [hstep] at h
      simp at h
      rw [← h] at hfd
      simp at hfd
    | err e =>
      rw [hstep] at h
      simp at h

/-- The unconsumed input of a cell scan is a suffix of its input; when the
cell did not end the row, the byte just before that suffix is a comma. -/
theorem scanCellFrom_rest_suffix {s : cellState} {acc input : List Nat} {r : CellResult}
    (h : scanCellFrom s acc input = .ok r) :
    (∃ pre, input = pre ++ r.rest) ∧
    (r.rowDone = false → ∃ pre, input = pre ++ 44 :: r.rest) := by
  induction input generalizing s acc with
  | nil =>
    by_cases hs : s = cellState.inQuote
    · simp [scanCellFrom, hs] at h
    · simp [scanCellFrom, hs] at h
      refine ⟨⟨[], by simp [← h]⟩, fun hrd => ?_⟩
      rw [← h] at hrd
      simp at hrd
  | cons c rest ih =>
    rw [scanCellFrom] at h
    cases hstep : stepByte s c with
    | cont s2 out =>
      rw [hstep] at h
      obtain ⟨⟨p1, hp1⟩, h2⟩ := ih h
      refine ⟨⟨c :: p1, by simp [hp1]⟩, fun hrd => ?_⟩
      obtain ⟨p2, hp2⟩ := h2 hrd
      exact ⟨c :: p2, by simp [hp2]⟩
    | endCell out rowDone =>
      rw [hstep] at h
      simp at h
      refine ⟨⟨[c], by simp [← h]⟩, fun hrd => ?_⟩
      have hrd2 : rowDone = false := by
        rw [← h] at hrd
        simpa using hrd
      have hc : c = 44 := stepByte_endCell_false (by rw [hstep, hrd2])
      subst hc
      exact ⟨[], by simp [← h]⟩
    | err e =>
      rw [hstep] at h
      simp at h

/-- A successful row scan of an input ending in a line feed that consumed
the whole input does not mark the stream complete. -/
theorem scanLoop_lf_not_fileDone :
    ∀ (n : Nat) (parsed offsets input : List Nat) (r : ReaderRow),
    input.length ≤ n →
    scanLoop parsed offsets input = .ok r →
    input.getLast? = some 10 →
    r.rest = [] →
    r.fileDone = false := by
  intro n
  induction n with
  | zero =>
    intro parsed offsets input r hn hloop hlf hrest
    have : input = [] := by
      cases input with
      | nil => rfl
      | cons a t => simp at hn
    subst this
    simp at hlf
  | succ n ih =>
    intro parsed offsets input r hn hloop hlf hrest
    rw [scanLoop] at hloop
    split at hloop
    · exact absurd hloop (by simp)
    · rename_i r0 hcell
      split at hloop
      · rename_i hrd
        simp only [Except.ok.injEq] at hloop
        rw [← hloop] at hrest ⊢
        by_contra hfd
        simp at hfd
        obtain ⟨-, hor⟩ := scanCellFrom_fileDone hcell hfd
        rcases hor with h0 | hne
        · subst h0
          simp at hlf
        · exact hne hlf
      · rename_i hrd
        simp at hrd
        have hlt := (scanCellFrom_rest_length hcell).2 hrd
        obtain ⟨-, hsuf⟩ := scanCellFrom_rest_suffix hcell
        obtain ⟨pre, hpre⟩ := hsuf hrd
        cases hr0 : r0.rest with
        | nil =>
          rw [hr0] at hpre
          rw [hpre] at hlf
          simp at hlf
        | cons d t =>
          apply ih r0.parsed (offsets ++ [r0.parsed.length]) r0.rest r (by omega) hloop ?_ hrest
          rw [hpre] at hlf
          rw [List.getLast?_append_cons] at hlf
          rw [hr0] at hlf ⊢
          simpa using hlf

/-- **C10**: on an input ending in a line feed, the row scan that consumes
the final LF does not mark the stream complete, so one further `Scan`
succeeds and yields exactly one empty cell while setting the
stream-complete flag; every `Scan` on a completed stream returns the EOF
error, so the flag is sticky. -/
theorem eofProtocol :
    (∀ (input : List Nat) (r : ReaderRow), scan false input = .ok r →
      input.getLast? = some 10 → r.rest = [] → r.fileDone = false) ∧
    (scan false [] = .ok ⟨[], [0, 0], [], true⟩ ∧
      rowStrings ⟨[], [0, 0], [], true⟩ = [[]]) ∧
    (∀ input : List Nat, scan true input = .error .eof) := by
  refine ⟨fun input r h hlf hrest => ?_, ⟨?_, rfl⟩, fun input => rfl⟩
  · have hloop : scanLoop [] [0] input = .ok r := by simpa [scan] using h
    exact scanLoop_lf_not_fileDone input.length [] [0] input r le_rfl hloop hlf hrest
  · simp [scan, scanLoop, scanCellFrom]

/-- Witness for C10 at the input consisting of a single line feed. -/
theorem eofProtocol_witness :
    (⟨[], [0, 0], [], false⟩ : ReaderRow).fileDone = false := by
  have h : scan false [10] = .ok ⟨[], [0, 0], [], false⟩ := by
    simp [scan, scanLoop, scanCellFrom, stepByte]
  exact eofProtocol.1 [10] _ h (by decide) rfl

/-- A plain alphanumeric byte is ordinary cell data in the `begin` and
`inCell` states. -/
theorem stepByte_plain {c : Nat} (hc : plainByte c = true) :
    stepByte .begin c = .cont .inCell [c] ∧ stepByte .inCell c = .cont .inCell [c] := by
  simp [plainByte] at hc
  have h34 : c ≠ 34 := by omega
  have h44 : c ≠ 44 := by omega
  have h32 : c ≠ 32 := by omega
  have h9 : c ≠ 9 := by omega
  have h13 : c ≠ 13 := by omega
  have h10 : c ≠ 10 := by omega
  constructor <;> simp [stepByte, h34, h44, h32, h9, h13, h10]

/-- Scanning a plain field from `inCell` up to a separator accumulates the
field exactly and stops at the separator. -/
theorem scanCell_plain_inCell (f : List Nat) (hf : ∀ c ∈ f, plainByte c = true)
    (sep : Nat) (hsep : sep = 44 ∨ sep = 10) (acc rest : List Nat) :
    scanCellFrom .inCell acc (f ++ sep :: rest) =
      .ok ⟨acc ++ f, rest, decide (sep = 10), false⟩ := by
  induction f generalizing acc with
  | nil =>
    rcases hsep with h | h <;> subst h <;> simp [scanCellFrom, stepByte]
  | cons c t ih =>
    have hc := hf c (by simp)
    rw [List.cons_append, scanCellFrom, (stepByte_plain hc).2]
    show scanCellFrom .inCell (acc ++ [c]) (t ++ sep :: rest) = _
    rw [ih (fun d hd => hf d (by simp [hd])) (acc ++ [c])]
    simp

/-- Scanning a plain field from `begin` up to a separator accumulates the
field exactly and stops at the separator. -/
theorem scanCell_plain_begin (f : List Nat) (hf : ∀ c ∈ f, plainByte c = true)
    (sep : Nat) (hsep : sep = 44 ∨ sep = 10) (acc rest : List Nat) :
    scanCellFrom .begin acc (f ++ sep :: rest) =
      .ok ⟨acc ++ f, rest, decide (sep = 10), false⟩ := by
  cases f with
  | nil =>
    rcases hsep with h | h <;> subst h <;> simp [scanCellFrom, stepByte]
  | cons c t =>
    have hc := hf c (by simp)
    rw [List.cons_append, scanCellFrom, (stepByte_plain hc).1]
    show scanCellFrom .inCell (acc ++ [c]) (t ++ sep :: rest) = _
    rw [scanCell_plain_inCell t (fun d hd => hf d (by simp [hd])) sep hsep (acc ++ [c])]
    simp

/-- The row loop on a comma-joined plain row followed by LF consumes exactly
the row, appending field contents to the accumulator and field end offsets
to the boundary table. -/
theorem scanLoop_plain_row :
    ∀ (fields : List (List Nat)), fields ≠ [] →
    (∀ f ∈ fields, ∀ c ∈ f, plainByte c = true) →
    ∀ (parsed offsets rest : List Nat),
    scanLoop parsed offsets (joinComma fields ++ 10 :: rest) =
      .ok ⟨parsed ++ fields.flatten, offsets ++ endOffsets parsed.length fields,
        rest, false⟩ := by
  intro fields
  induction fields with
  | nil => intro h; cases h rfl
  | cons f t ih =>
    intro _ hf parsed offsets rest
    cases t with
    | nil =>
      have hcell :=
        scanCell_plain_begin f (fun c hc => hf f (by simp) c hc) 10 (Or.inr rfl) parsed rest
      rw [joinComma, scanLoop]
      split
      · rename_i e he
        rw [hcell] at he
        simp at he
      · rename_i r0 hr0
        rw [hcell] at hr0
        simp only [Except.ok.injEq] at hr0
        subst hr0
        simp [endOffsets]
    | cons g t2 =>
      have hcell :=
        scanCell_plain_begin f (fun c hc => hf f (by simp) c hc) 44 (Or.inl rfl) parsed
          (joinComma (g :: t2) ++ 10 :: rest)
      have hih := ih (by simp) (fun d hd c hc => hf d (by simp [hd]) c hc) (parsed ++ f)
        (offsets ++ [(parsed ++ f).length]) rest
      rw [joinComma, List.append_assoc, List.cons_append, scanLoop]
      split
      · rename_i e he
        rw [hcell] at he
        simp at he
      · rename_i r0 hr0
        rw [hcell] at hr0
        simp only [Except.ok.injEq] at hr0
        subst hr0
        split
        · rename_i hd
          simp at hd
        · exact hih.trans (by simp [endOffsets])

/-- Reading back concatenated plain fields through the boundary table
recovers the fields. -/
theorem rowStringsAux_endOffsets :
    ∀ (fields : List (List Nat)) (pre : List Nat),
    rowStringsAux (pre ++ fields.flatten) pre.length (endOffsets pre.length fields) =
      fields := by
  intro fields
  induction fields with
  | nil => intro pre; rfl
  | cons f t ih =>
    intro pre
    rw [endOffsets, rowStringsAux]
    have hflat : (f :: t).flatten = f ++ t.flatten := by simp
    simp only [List.cons.injEq]
    constructor
    · rw [hflat, Nat.add_sub_cancel_left, List.drop_left, List.take_left]
    · have := ih (pre ++ f)
      rw [List.length_append] at this
      rw [hflat, ← List.append_assoc]
      exact this

/-- A plain alphanumeric field never needs quoting. -/
theorem fieldNeedsQuotes_plain {f : List Nat} (hf : ∀ c ∈ f, plainByte c = true) :
    Writer.fieldNeedsQuotes f = false := by
  by_cases hnil : f = []
  · subst hnil
    rfl
  · have hsp : ¬ (containsSpecial f = true) := by
      simp only [containsSpecial, List.any_eq_true, not_exists]
      rintro c ⟨hc, hcs⟩
      have := hf c hc
      simp [plainByte] at this
      simp at hcs
      omega
    have hsd : f ≠ [92, 46] := by
      intro he
      have := hf 92 (by rw [he]; simp)
      exact absurd this (by decide)
    obtain ⟨c, t, rfl⟩ := List.exists_cons_of_ne_nil hnil
    have hc := hf c (by simp)
    have hor : ¬ (c :: t = [92, 46] ∨ containsSpecial (c :: t) = true) := by
      rintro (h | h)
      · exact hsd h
      · exact hsp h
    rw [Writer.fieldNeedsQuotes, if_neg hnil, if_neg hor]
    have hclt : c < 0x80 := by
      simp [plainByte] at hc
      omega
    have hdec : utf8DecodeRune (c :: t) = c := by
      simp only [utf8DecodeRune.eq_def]
      rw [if_pos hclt]
    rw [hdec]
    simp only [unicodeIsSpace, decide_eq_false_iff_not]
    simp [plainByte] at hc
    omega

/-- `Writer.String` on a plain field: separator logic, then the raw field. -/
theorem writeString_plain (w : Writer) {f : List Nat}
    (hf : ∀ c ∈ f, plainByte c = true) :
    Writer.String w f = ⟨(Writer.comma w).b ++ f, w.count + 1⟩ := by
  rw [Writer.String]
  simp [fieldNeedsQuotes_plain hf]
  rfl

/-- The comma-join of a row is its head plus comma-prefixed remaining
fields. -/
theorem joinComma_eq_flatten :
    ∀ (t : List (List Nat)) (f : List Nat),
    joinComma (f :: t) = f ++ (t.map (fun g => 44 :: g)).flatten := by
  intro t
  induction t with
  | nil => intro f; simp [joinComma]
  | cons g t2 ih =>
    intro f
    rw [joinComma, ih g]
    simp

/-- Appending plain fields to a writer that already holds a field prefixes
every field with a comma. -/
theorem foldl_string_plain_ne :
    ∀ (fields : List (List Nat)), (∀ f ∈ fields, ∀ c ∈ f, plainByte c = true) →
    ∀ (w : Writer), w.count ≠ 0 →
    (fields.foldl Writer.String w).b =
      w.b ++ (fields.map (fun g => 44 :: g)).flatten ∧
    (fields.foldl Writer.String w).count = w.count + fields.length := by
  intro fields
  induction fields with
  | nil =>
    intro _ w _
    simp [List.foldl]
  | cons f t ih =>
    intro hf w hw
    have hstr : Writer.String w f = ⟨w.b ++ [44] ++ f, w.count + 1⟩ := by
      rw [writeString_plain w (fun c hc => hf f (by simp) c hc)]
      simp [Writer.comma, hw]
    have := ih (fun g hg c hc => hf g (by simp [hg]) c hc) ⟨w.b ++ [44] ++ f, w.count + 1⟩
      (by simp)
    rw [List.foldl_cons, hstr]
    refine ⟨?_, ?_⟩
    · rw [this.1]
      simp
    · rw [this.2]
      simp
      omega

/-- From a fresh writer, appending a nonempty plain row with
`Writer.String` builds exactly the comma-joined row. -/
theorem foldl_string_plain_init (fields : List (List Nat)) (hne : fields ≠ [])
    (hf : ∀ f ∈ fields, ∀ c ∈ f, plainByte c = true) :
    (fields.foldl Writer.String Writer.init).b = joinComma fields := by
  cases fields with
  | nil => exact absurd rfl hne
  | cons f t =>
    have hstr : Writer.String Writer.init f = ⟨f, 1⟩ := by
      rw [writeString_plain Writer.init (fun c hc => hf f (by simp) c hc)]
      rfl
    rw [List.foldl_cons, hstr]
    cases t with
    | nil => rfl
    | cons g t2 =>
      have := foldl_string_plain_ne (g :: t2)
        (fun d hd c hc => hf d (by simp [hd]) c hc) ⟨f, 1⟩ (by simp)
      rw [this.1, joinComma_eq_flatten]

/-- **C1**: writing rows of plain alphanumeric fields (each row nonempty)
with `Writer.String` + `LineComplete` and reading the emitted bytes back
with `Scan`/`Read` reproduces the rows exactly — in particular each row
reads back with as many cells as values were written. -/
theorem roundTrip (rows : List (List (List Nat)))
    (h : ∀ row ∈ rows, row ≠ [] ∧ ∀ f ∈ row, ∀ c ∈ f, plainByte c = true) :
    readRows rows.length false (writeRows Writer.init rows) = .ok (rows, false, []) ∧
    (∀ rr fd rest, readRows rows.length false (writeRows Writer.init rows) =
        .ok (rr, fd, rest) → rr.map List.length = rows.map List.length) := by
  have main : readRows rows.length false (writeRows Writer.init rows) =
      .ok (rows, false, []) := by
    induction rows with
    | nil => rfl
    | cons row rest ih =>
      have hrow := h row (by simp)
      have hbytes : writeRows Writer.init (row :: rest) =
          joinComma row ++ 10 :: writeRows Writer.init rest := by
        rw [writeRows]
        simp only [Writer.LineComplete]
        rw [foldl_string_plain_init row hrow.1 hrow.2]
        simp [Writer.init]
      have hscan : scan false (joinComma row ++ 10 :: writeRows Writer.init rest) =
          .ok ⟨row.flatten, 0 :: endOffsets 0 row, writeRows Writer.init rest, false⟩ := by
        rw [scan, if_neg (by simp)]
        have := scanLoop_plain_row row hrow.1 hrow.2 [] [0] (writeRows Writer.init rest)
        simpa using this
      have hcells : rowStrings ⟨row.flatten, 0 :: endOffsets 0 row,
          writeRows Writer.init rest, false⟩ = row := by
        rw [rowStrings]
        have := rowStringsAux_endOffsets row []
        simpa using this
      rw [List.length_cons, hbytes, readRows]
      simp only [hscan, ih (fun r hr => h r (by simp [hr])), hcells]
  refine ⟨main, fun rr fd rest hr => ?_⟩
  rw [main] at hr
  simp at hr
  rw [hr.1]

/-- Witness for C1 on the single row `["a"]`. -/
theorem roundTrip_witness :
    readRows 1 false (writeRows Writer.init [[[97]]]) = .ok ([[[97]]], false, []) :=
  (roundTrip [[[97]]] (by decide)).1

end Csv

section Sanity

example : Csv.scanCellFrom .begin [] [97, 44, 98] = .ok ⟨[97], [98], false, false⟩ := rfl

example : Csv.scan false [97, 44, 98, 10] =
    .ok ⟨[97, 98], [0, 1, 2], [], false⟩ := by
  simp [Csv.scan, Csv.scanLoop, Csv.scanCellFrom, Csv.stepByte]

example : Csv.rowStrings ⟨[97, 98], [0, 1, 2], [], false⟩ = [[97], [98]] := rfl

example : (Csv.Writer.String Csv.Writer.init [97]).b = [97] := by decide

example : Csv.Writer.fieldNeedsQuotes [32, 97] = true := by decide

example : Csv.Writer.fieldNeedsQuotes [92, 46] = true := by decide

example : Csv.Writer.byteFieldNeedsQuotes [92, 46] = true := by decide

example : Csv.Writer.fieldNeedsQuotes [104, 97, 116] = false := by decide

example : Csv.writeRows Csv.Writer.init [[[97], [98]], [[99]]] =
    [97, 44, 98, 10, 99, 10] := by decide

example : Csv.appendInt (-42) = [45, 52, 50] := by decide

example : Csv.utf8DecodeRune [0xC2, 0xA0, 55] = 0xA0 := by decide

example : Csv.unicodeIsSpace (Csv.utf8DecodeRune [0xE2, 0x80, 0x85]) = true := by decide

end Sanity
